/-
Verification of the tree-sitter external scanner in
src/packages/grammar/src/scanner.c (the indentation-sensitive tokenizer of
the thalo/ptall grammar).

The scanner is embedded shallowly: the cursor is the list of characters from
the current scan position onward (the scanner never looks backward), and
advancing the cursor is taking suffixes of that list.  The committed token
boundary (lexer->mark_end) is recorded as the remaining suffix at the moment
of the mark; the absolute position is recoverable as the number of characters
before that suffix.  The acceptability vector valid_symbols is a record of
three booleans, one per external token kind.
-/
import Mathlib

set_option maxHeartbeats 2000000
set_option maxRecDepth 8000

namespace ThaloScanner

/-- Token kinds of the external scanner (scanner.c:34-38, enum TokenType). -/
inductive TokenType where
  | INDENT
  | CONTENT_BLANK
  | ERROR_SENTINEL
deriving DecidableEq

/-- The valid_symbols acceptability vector: one flag per external token kind
(scanner.c, const bool *valid_symbols indexed by TokenType). -/
structure ValidSymbols where
  indent : Bool
  content_blank : Bool
  error_sentinel : Bool
deriving DecidableEq

/-- Embedding of is_newline (scanner.c:61-63). -/
def is_newline (c : Char) : Bool := c = '\n' || c = '\r'

/-- Embedding of is_hspace (scanner.c:68-70). -/
def is_hspace (c : Char) : Bool := c = ' ' || c = '\t'

/-- Embedding of in_error_recovery (scanner.c:78-80). -/
def in_error_recovery (v : ValidSymbols) : Bool := v.error_sentinel

/-- Embedding of has_valid_indent (scanner.c:87-89): at least one tab or an
indent count of at least 1. -/
def has_valid_indent (indent : Nat) (has_tab : Bool) : Bool :=
  has_tab || decide (1 ≤ indent)

/-- The C test is_newline(lexer->lookahead) on the current cursor: at end of
input the C lookahead is the null character, which is not a newline. -/
def head_is_newline (s : List Char) : Bool :=
  match s with
  | [] => false
  | c :: _ => is_newline c

/-- The C test is_hspace(lexer->lookahead) on the current cursor. -/
def head_is_hspace (s : List Char) : Bool :=
  match s with
  | [] => false
  | c :: _ => is_hspace c

/-- Embedding of consume_newline (scanner.c:125-131): advance once, and once
more when the consumed character was a carriage return directly followed by a
line feed, so \n, \r and \r\n are each one logical line break. -/
def consume_newline (s : List Char) : List Char :=
  match s with
  | [] => []
  | c :: rest =>
    if c = '\r' then
      match rest with
      | '\n' :: rest2 => rest2
      | _ => rest
    else rest

/-- Result of consume_indentation: the indent count, the has_tab flag and the
cursor after the indentation. -/
structure IndentResult where
  indent : Nat
  has_tab : Bool
  rest : List Char
deriving DecidableEq

/-- Embedding of consume_indentation (scanner.c:138-151): count consecutive
horizontal-whitespace characters, recording whether a tab appeared. -/
def consume_indentation (s : List Char) : IndentResult :=
  match s with
  | [] => ⟨0, false, []⟩
  | c :: rest =>
    if is_hspace c then
      let r := consume_indentation rest
      ⟨r.indent + 1, decide (c = '\t') || r.has_tab, r.rest⟩
    else ⟨0, false, c :: rest⟩

/-- The comment-skip loop body (scanner.c:204-206 and 251-253): advance while
the lookahead is neither a newline nor end of input. -/
def skip_to_eol (s : List Char) : List Char :=
  match s with
  | [] => []
  | c :: rest => if is_newline c then c :: rest else skip_to_eol rest

theorem consume_newline_length_le (c : Char) (rest : List Char) :
    (consume_newline (c :: rest)).length ≤ rest.length := by
  simp only [consume_newline]
  split
  · split
    · simp
    · exact le_rfl
  · exact le_rfl

theorem consume_newline_length_lt (s : List Char) (h : s ≠ []) :
    (consume_newline s).length < s.length := by
  match s with
  | [] => exact absurd rfl h
  | c :: rest =>
    have h1 := consume_newline_length_le c rest
    simp only [List.length_cons]
    omega

theorem consume_indentation_rest_length (s : List Char) :
    (consume_indentation s).rest.length ≤ s.length := by
  induction s with
  | nil => simp [consume_indentation]
  | cons c rest ih =>
    simp only [consume_indentation]
    split
    · simpa using Nat.le_succ_of_le ih
    · simp

theorem skip_to_eol_length (s : List Char) :
    (skip_to_eol s).length ≤ s.length := by
  induction s with
  | nil => simp [skip_to_eol]
  | cons c rest ih =>
    simp only [skip_to_eol]
    split
    · simp
    · exact Nat.le_succ_of_le ih

theorem skip_to_eol_cons_slash (t2 : List Char) :
    skip_to_eol ('/' :: t2) = skip_to_eol t2 := by
  simp only [skip_to_eol]
  rw [if_neg (by decide)]

theorem head_is_newline_ne_nil (s : List Char) (h : head_is_newline s = true) :
    s ≠ [] := by
  intro h0
  subst h0
  simp [head_is_newline] at h

theorem bl_dec_blank (s : List Char) (hw : head_is_newline s = true) :
    (consume_indentation (consume_newline s)).rest.length < s.length := by
  have h1 := consume_indentation_rest_length (consume_newline s)
  have h2 := consume_newline_length_lt s (head_is_newline_ne_nil s hw)
  omega

theorem bl_dec_comment (s : List Char) (hw : head_is_newline s = true) :
    (skip_to_eol (consume_indentation (consume_newline s)).rest.tail).length < s.length := by
  have h1 := consume_indentation_rest_length (consume_newline s)
  have h2 := consume_newline_length_lt s (head_is_newline_ne_nil s hw)
  have h3 := skip_to_eol_length (consume_indentation (consume_newline s)).rest.tail
  have h4 : (consume_indentation (consume_newline s)).rest.tail.length
      ≤ (consume_indentation (consume_newline s)).rest.length := by
    have := List.length_tail (consume_indentation (consume_newline s)).rest
    omega
  omega

/-- The CONTENT_BLANK lookahead loop (scanner.c:237-272): starting at the
line break that terminates the blank line already marked, peek forward
through blank lines and comment-only lines; report true exactly when an
indented non-comment content line is found.  The outer test is the while
condition is_newline(lookahead); a line with content is checked for a
leading // comment (skipped, continuing the loop) and otherwise decides by
has_valid_indent on the measured indentation. -/
def blank_lookahead (s : List Char) : Bool :=
  if hw : head_is_newline s = true then
    if head_is_newline (consume_indentation (consume_newline s)).rest
        || (consume_indentation (consume_newline s)).rest.isEmpty then
      blank_lookahead (consume_indentation (consume_newline s)).rest
    else if (consume_indentation (consume_newline s)).rest.head? = some '/'
        ∧ (consume_indentation (consume_newline s)).rest.tail.head? = some '/' then
      blank_lookahead (skip_to_eol (consume_indentation (consume_newline s)).rest.tail)
    else
      has_valid_indent (consume_indentation (consume_newline s)).indent
        (consume_indentation (consume_newline s)).has_tab
  else false
termination_by s.length
decreasing_by
  · exact bl_dec_blank s hw
  · exact bl_dec_comment s hw

/-- The outcome of one scan call: whether the call returned true, the
lexer->result_symbol it set, and the cursor suffix at the last
lexer->mark_end call (none when mark_end was never called). -/
structure ScanResult where
  matched : Bool
  result_symbol : Option TokenType
  marked_end : Option (List Char)
deriving DecidableEq

/-- A scan return of false with no result symbol set. -/
def no_match : ScanResult := ⟨false, none, none⟩

/-- The tail of scan_newline after the comment check (scanner.c:221-281):
Case 1 emits INDENT when the line has content and valid indentation, Case 2
marks the blank line and runs the CONTENT_BLANK lookahead, and otherwise the
scanner declines.  The cursor argument is the position at which Case 1 or
Case 2 would mark the token end. -/
def scan_finish (v : ValidSymbols) (s : List Char) (at_eol vi : Bool) : ScanResult :=
  if at_eol = false ∧ vi = true ∧ v.indent = true then
    ⟨true, some TokenType.INDENT, some s⟩
  else if at_eol = true ∧ v.content_blank = true then
    if blank_lookahead s then ⟨true, some TokenType.CONTENT_BLANK, some s⟩
    else ⟨false, none, some s⟩
  else no_match

theorem sll_dec (s : List Char)
    (h : (consume_indentation (consume_newline s)).rest.head? = some '/') :
    (skip_to_eol (consume_indentation (consume_newline s)).rest.tail).length < s.length := by
  have hs : s ≠ [] := by
    intro h0
    subst h0
    simp [consume_newline, consume_indentation] at h
  have h1 := consume_indentation_rest_length (consume_newline s)
  have h2 := consume_newline_length_lt s hs
  have h3 := skip_to_eol_length (consume_indentation (consume_newline s)).rest.tail
  have h4 : (consume_indentation (consume_newline s)).rest ≠ [] := by
    intro h0
    rw [h0] at h
    simp at h
  have h5 : 0 < (consume_indentation (consume_newline s)).rest.length :=
    List.length_pos.mpr h4
  have h6 : (consume_indentation (consume_newline s)).rest.tail.length
      = (consume_indentation (consume_newline s)).rest.length - 1 :=
    List.length_tail _
  omega

/-- The body of scan_newline's outer loop (scanner.c:178-282): consume the
line break, measure the indentation, skip a comment-only line and loop, or
dispatch to the INDENT / CONTENT_BLANK decision.  A lone slash is consumed by
the comment probe before the decision (scanner.c:201, 215-218). -/
def scan_line_loop (v : ValidSymbols) (s : List Char) : ScanResult :=
  if h : ((head_is_newline (consume_indentation (consume_newline s)).rest
        || (consume_indentation (consume_newline s)).rest.isEmpty) = false)
      ∧ (consume_indentation (consume_newline s)).rest.head? = some '/' then
    if (consume_indentation (consume_newline s)).rest.tail.head? = some '/' then
      if head_is_newline (skip_to_eol (consume_indentation (consume_newline s)).rest.tail) then
        scan_line_loop v (skip_to_eol (consume_indentation (consume_newline s)).rest.tail)
      else no_match
    else
      scan_finish v (consume_indentation (consume_newline s)).rest.tail
        (head_is_newline (consume_indentation (consume_newline s)).rest
          || (consume_indentation (consume_newline s)).rest.isEmpty)
        (has_valid_indent (consume_indentation (consume_newline s)).indent
          (consume_indentation (consume_newline s)).has_tab)
  else
    scan_finish v (consume_indentation (consume_newline s)).rest
      (head_is_newline (consume_indentation (consume_newline s)).rest
        || (consume_indentation (consume_newline s)).rest.isEmpty)
      (has_valid_indent (consume_indentation (consume_newline s)).indent
        (consume_indentation (consume_newline s)).has_tab)
termination_by s.length
decreasing_by
  exact sll_dec s h.2

/-- Embedding of scan_newline's entry guard (scanner.c:172-175): the scan
must start at a newline. -/
def scan_newline (v : ValidSymbols) (s : List Char) : ScanResult :=
  if head_is_newline s then scan_line_loop v s else no_match

/-- Embedding of scan (scanner.c:290-312): decline in error recovery, and
only attempt the newline scan when INDENT or CONTENT_BLANK is acceptable. -/
def scan (v : ValidSymbols) (s : List Char) : ScanResult :=
  if in_error_recovery v then no_match
  else if v.indent || v.content_blank then scan_newline v s
  else no_match

/-- The token the host parser extracts from a scan call: tree-sitter consumes
the result symbol and the marked end only when the scan returned true. -/
def host_token (r : ScanResult) : Option (TokenType × List Char) :=
  if r.matched = true then
    match r.result_symbol, r.marked_end with
    | some k, some m => some (k, m)
    | _, _ => none
  else none

theorem is_newline_lf : is_newline '\n' = true := rfl

theorem is_newline_cr : is_newline '\r' = true := rfl

theorem is_newline_slash : is_newline '/' = false := rfl

theorem is_hspace_slash : is_hspace '/' = false := rfl

/-- The three character sequences consume_newline treats as one logical line
break: a line feed, a bare carriage return, and a carriage-return line-feed
pair (scanner.c:125-131). -/
def is_break (b : List Char) : Bool :=
  b = ['\n'] || b = ['\r'] || b = ['\r', '\n']

theorem is_break_cases (b : List Char) (hb : is_break b = true) :
    b = ['\n'] ∨ b = ['\r'] ∨ b = ['\r', '\n'] := by
  simp only [is_break, Bool.or_eq_true, decide_eq_true_eq] at hb
  tauto

theorem head_is_newline_break (b s : List Char) (hb : is_break b = true) :
    head_is_newline (b ++ s) = true := by
  rcases is_break_cases b hb with h | h | h <;> subst h <;> rfl

theorem not_hspace_of_newline (c : Char) (h : is_newline c = true) :
    is_hspace c = false := by
  simp only [is_newline, Bool.or_eq_true, decide_eq_true_eq] at h
  rcases h with h | h <;> subst h <;> rfl

theorem head?_append_left (l z : List Char) (h : l ≠ []) :
    (l ++ z).head? = l.head? := by
  cases l with
  | nil => exact absurd rfl h
  | cons c tl => simp

theorem consume_newline_break (b s : List Char) (hb : is_break b = true)
    (hcr : b = ['\r'] → s.head? ≠ some '\n') :
    consume_newline (b ++ s) = s := by
  rcases is_break_cases b hb with h | h | h
  · subst h
    rfl
  · subst h
    have hs := hcr rfl
    show consume_newline ('\r' :: s) = s
    simp only [consume_newline, if_true]
    split
    · simp at hs
    · rfl
  · subst h
    rfl

theorem consume_indentation_append (ind s : List Char)
    (h1 : ind.all is_hspace = true) (h2 : head_is_hspace s = false) :
    consume_indentation (ind ++ s)
      = ⟨ind.length, ind.any (fun c => decide (c = '\t')), s⟩ := by
  induction ind with
  | nil =>
    simp only [List.nil_append, List.any_nil, List.length_nil]
    match s with
    | [] => rfl
    | c :: s2 =>
      have hc : is_hspace c = false := by simpa [head_is_hspace] using h2
      simp [consume_indentation, hc]
  | cons c ind2 ih =>
    simp only [List.all_cons, Bool.and_eq_true] at h1
    simp only [List.cons_append, consume_indentation]
    rw [if_pos h1.1]
    simp only [List.append_eq]
    rw [ih h1.2]
    simp [List.any_cons]

theorem skip_to_eol_append (cs s : List Char)
    (h1 : cs.all (fun c => !is_newline c) = true)
    (h2 : head_is_newline s = true ∨ s = []) :
    skip_to_eol (cs ++ s) = s := by
  induction cs with
  | nil =>
    simp only [List.nil_append]
    match s with
    | [] => rfl
    | c :: s2 =>
      have hc : is_newline c = true := by
        rcases h2 with h | h
        · simpa [head_is_newline] using h
        · simp at h
      simp [skip_to_eol, hc]
  | cons c cs2 ih =>
    simp only [List.all_cons, Bool.and_eq_true, Bool.not_eq_true'] at h1
    simp only [List.cons_append, skip_to_eol]
    rw [if_neg (by simp [h1.1])]
    simp only [List.append_eq]
    exact ih h1.2

theorem bl_nil : blank_lookahead [] = false := by
  rw [blank_lookahead]
  simp [head_is_newline]

/-- One unfolding of blank_lookahead across a leading line break: what
remains is the decision on the line that follows the break. -/
theorem bl_unfold (b u : List Char) (hb : is_break b = true)
    (hcr : b = ['\r'] → u.head? ≠ some '\n') :
    blank_lookahead (b ++ u) =
      (if head_is_newline (consume_indentation u).rest
          || (consume_indentation u).rest.isEmpty then
        blank_lookahead (consume_indentation u).rest
      else if (consume_indentation u).rest.head? = some '/'
          ∧ (consume_indentation u).rest.tail.head? = some '/' then
        blank_lookahead (skip_to_eol (consume_indentation u).rest.tail)
      else
        has_valid_indent (consume_indentation u).indent
          (consume_indentation u).has_tab) := by
  rw [blank_lookahead]
  rw [dif_pos (head_is_newline_break b u hb)]
  rw [consume_newline_break b u hb hcr]

/-- Skipping one blank (empty or whitespace-only) line in the CONTENT_BLANK
lookahead: the loop continues at the line terminator that follows it. -/
theorem bl_blank_step (b w tail : List Char) (hb : is_break b = true)
    (hw : w.all is_hspace = true)
    (ht : head_is_newline tail = true ∨ tail = [])
    (hcr : b = ['\r'] → (w ++ tail).head? ≠ some '\n') :
    blank_lookahead (b ++ (w ++ tail)) = blank_lookahead tail := by
  have h2 : head_is_hspace tail = false := by
    rcases ht with h | h
    · match tail, h with
      | c :: tl, h => simpa [head_is_newline, head_is_hspace] using
          not_hspace_of_newline c (by simpa [head_is_newline] using h)
    · subst h
      rfl
  rw [bl_unfold b (w ++ tail) hb hcr]
  rw [consume_indentation_append w tail hw h2]
  have hc : (head_is_newline tail || tail.isEmpty) = true := by
    rcases ht with h | h
    · simp [h]
    · subst h
      rfl
  rw [if_pos hc]

/-- Skipping one comment-only line in the CONTENT_BLANK lookahead: the loop
continues at the line terminator that follows it. -/
theorem bl_comment_step (b ind cs tail : List Char) (hb : is_break b = true)
    (hind : ind.all is_hspace = true)
    (hcs : cs.all (fun c => !is_newline c) = true)
    (ht : head_is_newline tail = true ∨ tail = []) :
    blank_lookahead (b ++ (ind ++ ('/' :: '/' :: (cs ++ tail)))) = blank_lookahead tail := by
  have hcr : b = ['\r'] → (ind ++ ('/' :: '/' :: (cs ++ tail))).head? ≠ some '\n' := by
    intro _ h0
    match ind, h0 with
    | [], h0 =>
      simp only [List.nil_append, List.head?_cons, Option.some.injEq] at h0
      exact absurd h0 (by decide)
    | c :: ind2, h0 =>
      have hc : is_hspace c = true := by
        simp only [List.all_cons, Bool.and_eq_true] at hind
        exact hind.1
      simp only [List.cons_append, List.head?_cons, Option.some.injEq] at h0
      subst h0
      simp [is_hspace] at hc
  rw [bl_unfold b _ hb hcr]
  rw [consume_indentation_append ind ('/' :: '/' :: (cs ++ tail)) hind rfl]
  rw [if_neg (by simp [head_is_newline, is_newline_slash])]
  rw [if_pos ⟨rfl, rfl⟩]
  simp only [List.tail_cons]
  rw [skip_to_eol_cons_slash, skip_to_eol_append cs tail hcs ht]

/-- The CONTENT_BLANK lookahead at a line with real content: the verdict is
exactly has_valid_indent of that line's indentation.  A content line whose
first character is a lone slash (not followed by a second slash) is decided
the same way (scanner.c:247-257 falls through to the content check). -/
theorem bl_content_step (b ind : List Char) (c : Char) (rest : List Char)
    (hb : is_break b = true) (hind : ind.all is_hspace = true)
    (hc1 : is_hspace c = false) (hc2 : is_newline c = false)
    (hsl : c = '/' → rest.head? ≠ some '/') :
    blank_lookahead (b ++ (ind ++ c :: rest))
      = has_valid_indent ind.length (ind.any (fun x => decide (x = '\t'))) := by
  have hcr : b = ['\r'] → (ind ++ c :: rest).head? ≠ some '\n' := by
    intro _ h0
    match ind, h0 with
    | [], h0 =>
      simp only [List.nil_append, List.head?_cons, Option.some.injEq] at h0
      subst h0
      simp [is_newline] at hc2
    | x :: ind2, h0 =>
      have hx : is_hspace x = true := by
        simp only [List.all_cons, Bool.and_eq_true] at hind
        exact hind.1
      simp only [List.cons_append, List.head?_cons, Option.some.injEq] at h0
      subst h0
      simp [is_hspace] at hx
  rw [bl_unfold b _ hb hcr]
  rw [consume_indentation_append ind (c :: rest) hind (by simp [head_is_hspace, hc1])]
  rw [if_neg (by simp [head_is_newline, hc2])]
  rw [if_neg (by
    intro hand
    simp only [List.head?_cons, Option.some.injEq] at hand
    exact hsl hand.1 (by simpa [List.tail_cons] using hand.2))]

theorem head_ne_lf_of_line (ind : List Char) (c : Char) (rest : List Char)
    (hind : ind.all is_hspace = true) (hc2 : is_newline c = false) :
    (ind ++ c :: rest).head? ≠ some '\n' := by
  intro h0
  match ind, h0 with
  | [], h0 =>
    simp only [List.nil_append, List.head?_cons, Option.some.injEq] at h0
    subst h0
    simp [is_newline] at hc2
  | x :: ind2, h0 =>
    have hx : is_hspace x = true := by
      simp only [List.all_cons, Bool.and_eq_true] at hind
      exact hind.1
    simp only [List.cons_append, List.head?_cons, Option.some.injEq] at h0
    subst h0
    simp [is_hspace] at hx

theorem head_is_hspace_of_eol (tail : List Char)
    (ht : head_is_newline tail = true ∨ tail = []) :
    head_is_hspace tail = false := by
  rcases ht with h | h
  · match tail, h with
    | c :: tl, h =>
      simpa [head_is_hspace] using
        not_hspace_of_newline c (by simpa [head_is_newline] using h)
  · subst h
    rfl

theorem hvi_of_ne_nil (ind : List Char) (t : Bool) (h : ind ≠ []) :
    has_valid_indent ind.length t = true := by
  have h1 : 1 ≤ ind.length := List.length_pos.mpr h
  simp [has_valid_indent, h1]

theorem scan_finish_indent (v : ValidSymbols) (s : List Char) (hvi : v.indent = true) :
    scan_finish v s false true = ⟨true, some TokenType.INDENT, some s⟩ := by
  rw [scan_finish, if_pos ⟨rfl, rfl, hvi⟩]

theorem scan_finish_no_indent (v : ValidSymbols) (s : List Char) (vi : Bool)
    (hvi : v.indent = false) : scan_finish v s false vi = no_match := by
  rw [scan_finish]
  rw [if_neg (by intro hand; rw [hvi] at hand; exact absurd hand.2.2 (by decide))]
  rw [if_neg (by intro hand; exact absurd hand.1 (by decide))]

theorem scan_finish_blank (v : ValidSymbols) (s : List Char) (vi : Bool)
    (hcb : v.content_blank = true) :
    scan_finish v s true vi
      = (if blank_lookahead s then ⟨true, some TokenType.CONTENT_BLANK, some s⟩
         else (⟨false, none, some s⟩ : ScanResult)) := by
  rw [scan_finish]
  rw [if_neg (by intro hand; exact absurd hand.1 (by decide))]
  rw [if_pos ⟨rfl, hcb⟩]

theorem scan_finish_no_cb (v : ValidSymbols) (s : List Char) (vi : Bool)
    (hcb : v.content_blank = false) : scan_finish v s true vi = no_match := by
  rw [scan_finish]
  rw [if_neg (by intro hand; exact absurd hand.1 (by decide))]
  rw [if_neg (by intro hand; rw [hcb] at hand; exact absurd hand.2 (by decide))]

/-- The outer loop at a content line whose first character is not a slash:
with valid indentation and INDENT acceptable, the scanner marks the end
right there and emits INDENT (scanner.c:221-227). -/
theorem sll_indent (v : ValidSymbols) (b ind : List Char) (c : Char) (rest : List Char)
    (hb : is_break b = true) (hind : ind.all is_hspace = true) (hne : ind ≠ [])
    (hc1 : is_hspace c = false) (hc2 : is_newline c = false) (hc3 : c ≠ '/')
    (hvi : v.indent = true) :
    scan_line_loop v (b ++ (ind ++ c :: rest))
      = ⟨true, some TokenType.INDENT, some (c :: rest)⟩ := by
  rw [scan_line_loop]
  rw [consume_newline_break b _ hb (fun _ => head_ne_lf_of_line ind c rest hind hc2)]
  rw [consume_indentation_append ind (c :: rest) hind (by simp [head_is_hspace, hc1])]
  dsimp only
  rw [dif_neg (by intro hand; exact hc3 (by simpa using hand.2))]
  have hae : (head_is_newline (c :: rest) || (c :: rest).isEmpty) = false := by
    simp [head_is_newline, hc2]
  rw [hae]
  rw [hvi_of_ne_nil ind _ hne]
  exact scan_finish_indent v (c :: rest) hvi

/-- The outer loop at a content line that starts with a lone slash: the
comment probe consumes the slash (scanner.c:201), the second-slash test
fails, and INDENT is emitted with the mark one character past the
indentation (scanner.c:215-227). -/
theorem sll_indent_slash (v : ValidSymbols) (b ind rest : List Char)
    (hb : is_break b = true) (hind : ind.all is_hspace = true) (hne : ind ≠ [])
    (hsl : rest.head? ≠ some '/') (hvi : v.indent = true) :
    scan_line_loop v (b ++ (ind ++ '/' :: rest))
      = ⟨true, some TokenType.INDENT, some rest⟩ := by
  rw [scan_line_loop]
  rw [consume_newline_break b _ hb (fun _ => head_ne_lf_of_line ind '/' rest hind rfl)]
  rw [consume_indentation_append ind ('/' :: rest) hind rfl]
  dsimp only
  rw [dif_pos ⟨by simp [head_is_newline, is_newline_slash], rfl⟩]
  rw [if_neg (by simpa [List.tail_cons] using hsl)]
  simp only [List.tail_cons]
  have hae : (head_is_newline ('/' :: rest) || ('/' :: rest).isEmpty) = false := by
    simp [head_is_newline, is_newline_slash]
  rw [hae]
  rw [hvi_of_ne_nil ind _ hne]
  exact scan_finish_indent v rest hvi

/-- The outer loop at a comment-only line: the line is skipped entirely and
scanning continues at the following line terminator (scanner.c:197-219). -/
theorem sll_comment_skip (v : ValidSymbols) (b ind cs tail : List Char)
    (hb : is_break b = true) (hind : ind.all is_hspace = true)
    (hcs : cs.all (fun c => !is_newline c) = true)
    (htail : head_is_newline tail = true) :
    scan_line_loop v (b ++ (ind ++ ('/' :: '/' :: (cs ++ tail))))
      = scan_line_loop v tail := by
  rw [scan_line_loop]
  rw [consume_newline_break b _ hb
    (fun _ => head_ne_lf_of_line ind '/' ('/' :: (cs ++ tail)) hind rfl)]
  rw [consume_indentation_append ind ('/' :: '/' :: (cs ++ tail)) hind rfl]
  dsimp only
  rw [dif_pos ⟨by simp [head_is_newline, is_newline_slash], rfl⟩]
  rw [if_pos (show ('/' :: '/' :: (cs ++ tail)).tail.head? = some '/' from rfl)]
  simp only [List.tail_cons]
  rw [skip_to_eol_cons_slash, skip_to_eol_append cs tail hcs (Or.inl htail)]
  rw [if_pos htail]

/-- The outer loop at a blank (or whitespace-only) line: the decision is
deferred to Case 2 with at_eol set and the mark at the end of the
whitespace (scanner.c:229-277). -/
theorem sll_blank (v : ValidSymbols) (b w tail : List Char)
    (hb : is_break b = true) (hw : w.all is_hspace = true)
    (ht : head_is_newline tail = true ∨ tail = [])
    (hcr : b = ['\r'] → (w ++ tail).head? ≠ some '\n') :
    scan_line_loop v (b ++ (w ++ tail))
      = scan_finish v tail true
          (has_valid_indent w.length (w.any (fun x => decide (x = '\t')))) := by
  have hc : (head_is_newline tail || tail.isEmpty) = true := by
    rcases ht with h | h
    · simp [h]
    · subst h
      rfl
  rw [scan_line_loop]
  rw [consume_newline_break b _ hb hcr]
  rw [consume_indentation_append w tail hw (head_is_hspace_of_eol tail ht)]
  dsimp only
  rw [dif_neg (by intro hand; rw [hand.1] at hc; exact absurd hc (by decide))]
  rw [hc]

theorem scan_eq_line_loop (v : ValidSymbols) (s : List Char)
    (h1 : v.error_sentinel = false) (h2 : (v.indent || v.content_blank) = true)
    (h3 : head_is_newline s = true) : scan v s = scan_line_loop v s := by
  rw [scan]
  rw [if_neg (by simp [in_error_recovery, h1])]
  rw [if_pos h2]
  rw [scan_newline, if_pos h3]

theorem scan_err (v : ValidSymbols) (s : List Char) (h : v.error_sentinel = true) :
    scan v s = no_match := by
  simp [scan, in_error_recovery, h]

theorem scan_no_symbols (v : ValidSymbols) (s : List Char)
    (h1 : v.indent = false) (h2 : v.content_blank = false) :
    scan v s = no_match := by
  simp [scan, h1, h2]

/-- A full scan at a line break followed by an indented content line whose
first character is not a slash: INDENT is emitted and the mark sits exactly
between the indentation and the content. -/
theorem scan_indent_content (v : ValidSymbols) (b ind : List Char) (c : Char)
    (rest : List Char) (hb : is_break b = true) (hind : ind.all is_hspace = true)
    (hne : ind ≠ []) (hc1 : is_hspace c = false) (hc2 : is_newline c = false)
    (hc3 : c ≠ '/') (hvi : v.indent = true) (hes : v.error_sentinel = false) :
    scan v (b ++ (ind ++ c :: rest))
      = ⟨true, some TokenType.INDENT, some (c :: rest)⟩ := by
  rw [scan_eq_line_loop v _ hes (by simp [hvi]) (head_is_newline_break b _ hb)]
  exact sll_indent v b ind c rest hb hind hne hc1 hc2 hc3 hvi

/-- A full scan at a line break followed by an indented content line whose
first character is a lone slash: INDENT is emitted but the mark sits one
character past the indentation, after the slash the comment probe
consumed. -/
theorem scan_indent_slash (v : ValidSymbols) (b ind rest : List Char)
    (hb : is_break b = true) (hind : ind.all is_hspace = true) (hne : ind ≠ [])
    (hsl : rest.head? ≠ some '/') (hvi : v.indent = true)
    (hes : v.error_sentinel = false) :
    scan v (b ++ (ind ++ '/' :: rest))
      = ⟨true, some TokenType.INDENT, some rest⟩ := by
  rw [scan_eq_line_loop v _ hes (by simp [hvi]) (head_is_newline_break b _ hb)]
  exact sll_indent_slash v b ind rest hb hind hne hsl hvi

/-- C1 (counterexample): at the input newline, space, slash, x — a line
break followed by one space of indentation and the non-comment content
slash-x — with INDENT acceptable and the error sentinel not, the scanner
matches INDENT but the committed boundary is the suffix x, one character
past the indentation, not the suffix slash-x that lies immediately before
the first content character; so the boundary claimed by C1 is wrong here. -/
theorem c1_counterexample :
    scan ⟨true, false, false⟩ ['\n', ' ', '/', 'x']
      = ⟨true, some TokenType.INDENT, some ['x']⟩
    ∧ (['x'] : List Char) ≠ ['/', 'x'] := by
  constructor
  · exact scan_indent_slash ⟨true, false, false⟩ ['\n'] [' '] ['x']
      (by decide) (by decide) (by decide) (by decide) rfl rfl
  · decide

/-- C1 (amended): for every input where the scan starts at a line break
followed by a line with at least one space or tab of indentation and then
non-comment content whose first character is not a slash, and INDENT is
acceptable while the error sentinel is not, scan matches INDENT and the
committed boundary lies exactly after the indentation, immediately before
the first content character. -/
theorem c1_indent_boundary (v : ValidSymbols) (b ind : List Char) (c : Char)
    (rest : List Char) (hb : is_break b = true) (hind : ind.all is_hspace = true)
    (hne : ind ≠ []) (hc1 : is_hspace c = false) (hc2 : is_newline c = false)
    (hc3 : c ≠ '/') (hvi : v.indent = true) (hes : v.error_sentinel = false) :
    scan v (b ++ (ind ++ c :: rest))
      = ⟨true, some TokenType.INDENT, some (c :: rest)⟩ :=
  scan_indent_content v b ind c rest hb hind hne hc1 hc2 hc3 hvi hes

/-- C1 (witness): the amended theorem applied at the concrete input
newline, two spaces, b, with INDENT acceptable. -/
theorem c1_witness :
    scan ⟨true, false, false⟩ (['\n'] ++ ([' ', ' '] ++ 'b' :: []))
      = ⟨true, some TokenType.INDENT, some ['b']⟩ :=
  c1_indent_boundary ⟨true, false, false⟩ ['\n'] [' ', ' '] 'b' []
    (by decide) (by decide) (by decide) (by decide) (by decide) (by decide) rfl rfl

/-- C7: for every input where, after the initial line break and nonempty
indentation, the line's content begins with a single slash not followed by
a second slash, and INDENT is acceptable while the error sentinel is not,
the comment probe has consumed that lone slash, so INDENT is matched with
the committed boundary one code point past the indentation: the marked
suffix is rest, not slash-rest. -/
theorem c7_lone_slash_boundary (v : ValidSymbols) (b ind rest : List Char)
    (hb : is_break b = true) (hind : ind.all is_hspace = true) (hne : ind ≠ [])
    (hsl : rest.head? ≠ some '/') (hvi : v.indent = true)
    (hes : v.error_sentinel = false) :
    scan v (b ++ (ind ++ '/' :: rest))
      = ⟨true, some TokenType.INDENT, some rest⟩ :=
  scan_indent_slash v b ind rest hb hind hne hsl hvi hes

/-- C7 (witness): the theorem applied at the concrete input newline, space,
slash, x with INDENT acceptable. -/
theorem c7_witness :
    scan ⟨true, false, false⟩ (['\n'] ++ ([' '] ++ '/' :: ['x']))
      = ⟨true, some TokenType.INDENT, some ['x']⟩ :=
  c7_lone_slash_boundary ⟨true, false, false⟩ ['\n'] [' '] ['x']
    (by decide) (by decide) (by decide) (by decide) rfl rfl

/-- C4: for every input and every acceptability vector in which the error
sentinel is acceptable, scan returns no match, sets no result symbol,
commits no mark, and hands the host no token, regardless of the input. -/
theorem c4_error_recovery_declines (v : ValidSymbols) (s : List Char)
    (h : v.error_sentinel = true) :
    scan v s = no_match ∧ host_token (scan v s) = none := by
  refine ⟨scan_err v s h, ?_⟩
  rw [scan_err v s h]
  rfl

/-- C4 (witness): the theorem applied with all three symbols acceptable at
a concrete input that would otherwise match INDENT. -/
theorem c4_witness :
    scan ⟨true, true, true⟩ ['\n', ' ', 'b'] = no_match
    ∧ host_token (scan ⟨true, true, true⟩ ['\n', ' ', 'b']) = none :=
  c4_error_recovery_declines ⟨true, true, true⟩ ['\n', ' ', 'b'] rfl

/-- C6: for every input and acceptability vector, if scan returns no match
then no token boundary usable by the host was committed: the host token
extraction yields nothing.  The mark_end call the CONTENT_BLANK probe may
have issued before declining is recorded in marked_end but is unusable,
because the host consumes a boundary only from a scan that returned
true. -/
theorem c6_no_boundary_on_decline (v : ValidSymbols) (s : List Char)
    (h : (scan v s).matched = false) : host_token (scan v s) = none := by
  simp [host_token, h]

/-- C6 (witness): the theorem applied at the empty input with only INDENT
acceptable, where the scan declines. -/
theorem c6_witness : host_token (scan ⟨true, false, false⟩ []) = none :=
  c6_no_boundary_on_decline ⟨true, false, false⟩ [] rfl

/-- A line the CONTENT_BLANK lookahead can skip: blank (whitespace only) or
comment-only.  The fields are the line's characters without its
terminator. -/
inductive MidLine where
  | blank (ws : List Char)
  | comment (ind cs : List Char)

/-- The characters of a skippable line, excluding the line terminator. -/
def MidLine.render : MidLine → List Char
  | .blank ws => ws
  | .comment ind cs => ind ++ ('/' :: '/' :: cs)

/-- Well-formedness of a skippable line: a blank line is horizontal
whitespace only; a comment line is indentation, two slashes, then
characters without a line break. -/
def MidLine.wf : MidLine → Bool
  | .blank ws => ws.all is_hspace
  | .comment ind cs => ind.all is_hspace && cs.all (fun c => !is_newline c)

/-- A run of skippable lines, each preceded by its line terminator. -/
def mid_render : List (List Char × MidLine) → List Char
  | [] => []
  | (b, L) :: ls => b ++ (MidLine.render L ++ mid_render ls)

/-- Well-formedness of a run of skippable lines followed by a given suffix:
every terminator is a line break, every line is well formed, and a bare
carriage return terminator is never directly followed by a line feed (that
pair would be a single break, not two). -/
def chain_wf : List (List Char × MidLine) → List Char → Prop
  | [], _ => True
  | (b, L) :: ls, after =>
    is_break b = true ∧ MidLine.wf L = true
    ∧ (b = ['\r'] → (MidLine.render L ++ (mid_render ls ++ after)).head? ≠ some '\n')
    ∧ chain_wf ls after

theorem mid_render_head (ms : List (List Char × MidLine)) (after : List Char)
    (h : chain_wf ms after) (hafter : head_is_newline after = true ∨ after = []) :
    head_is_newline (mid_render ms ++ after) = true ∨ mid_render ms ++ after = [] := by
  cases ms with
  | nil => simpa [mid_render] using hafter
  | cons p ls =>
    obtain ⟨b, L⟩ := p
    left
    simp only [mid_render, List.append_assoc]
    exact head_is_newline_break b _ h.1

/-- The CONTENT_BLANK lookahead walks through any well-formed run of blank
and comment-only lines without changing its verdict: the run is
transparent. -/
theorem bl_chain (ms : List (List Char × MidLine)) (after : List Char)
    (hafter : head_is_newline after = true ∨ after = []) :
    chain_wf ms after →
      blank_lookahead (mid_render ms ++ after) = blank_lookahead after := by
  induction ms with
  | nil =>
    intro _
    simp [mid_render]
  | cons p ls ih =>
    intro h
    obtain ⟨b, L⟩ := p
    obtain ⟨hb, hwf, hcr, hch⟩ := h
    have htail := mid_render_head ls after hch hafter
    cases L with
    | blank ws =>
      simp only [mid_render, MidLine.render, List.append_assoc]
      rw [bl_blank_step b ws (mid_render ls ++ after) hb
        (by simpa [MidLine.wf] using hwf) htail
        (by simpa [MidLine.render] using hcr)]
      exact ih hch
    | comment ind cs =>
      simp only [MidLine.wf, Bool.and_eq_true] at hwf
      simp only [mid_render, MidLine.render, List.append_assoc, List.cons_append]
      rw [bl_comment_step b ind cs (mid_render ls ++ after) hb hwf.1 hwf.2 htail]
      exact ih hch

/-- C2: for every input where the scan starts at a line break followed by a
blank (empty or whitespace-only) line, the blank run is eventually followed
by an indented non-comment content line — skipping any well-formed run of
blank and comment-only lines in between — and CONTENT_BLANK is acceptable
while the error sentinel is not, scan matches CONTENT_BLANK and the
committed boundary is at the end of the first blank line: after its
whitespace w, immediately before its terminating break. -/
theorem c2_content_blank (v : ValidSymbols) (b0 w : List Char)
    (ms : List (List Char × MidLine)) (bfin ind : List Char) (c : Char)
    (rest : List Char)
    (hcb : v.content_blank = true) (hes : v.error_sentinel = false)
    (hb0 : is_break b0 = true) (hw : w.all is_hspace = true)
    (hcr0 : b0 = ['\r'] →
      (w ++ (mid_render ms ++ (bfin ++ (ind ++ c :: rest)))).head? ≠ some '\n')
    (hch : chain_wf ms (bfin ++ (ind ++ c :: rest)))
    (hbf : is_break bfin = true)
    (hind : ind.all is_hspace = true) (hne : ind ≠ [])
    (hc1 : is_hspace c = false) (hc2 : is_newline c = false)
    (hsl : c = '/' → rest.head? ≠ some '/') :
    scan v (b0 ++ (w ++ (mid_render ms ++ (bfin ++ (ind ++ c :: rest)))))
      = ⟨true, some TokenType.CONTENT_BLANK,
          some (mid_render ms ++ (bfin ++ (ind ++ c :: rest)))⟩ := by
  have hafter : head_is_newline (bfin ++ (ind ++ c :: rest)) = true ∨
      bfin ++ (ind ++ c :: rest) = [] :=
    Or.inl (head_is_newline_break bfin _ hbf)
  have hT := mid_render_head ms (bfin ++ (ind ++ c :: rest)) hch hafter
  rw [scan_eq_line_loop v _ hes (by simp [hcb]) (head_is_newline_break b0 _ hb0)]
  rw [sll_blank v b0 w _ hb0 hw hT hcr0]
  rw [scan_finish_blank v _ _ hcb]
  have hbl : blank_lookahead (mid_render ms ++ (bfin ++ (ind ++ c :: rest))) = true := by
    rw [bl_chain ms _ hafter hch]
    rw [bl_content_step bfin ind c rest hbf hind hc1 hc2 hsl]
    exact hvi_of_ne_nil ind _ hne
  rw [hbl]
  rfl

/-- C2 (witness): the theorem applied at the concrete input of a line feed,
an empty blank line, another line feed and the indented content line two
spaces then b, with CONTENT_BLANK acceptable. -/
theorem c2_witness :
    scan ⟨false, true, false⟩
        (['\n'] ++ ([] ++ (mid_render [] ++ (['\n'] ++ ([' ', ' '] ++ 'b' :: [])))))
      = ⟨true, some TokenType.CONTENT_BLANK,
          some (mid_render [] ++ (['\n'] ++ ([' ', ' '] ++ 'b' :: [])))⟩ :=
  c2_content_blank ⟨false, true, false⟩ ['\n'] [] [] ['\n'] [' ', ' '] 'b' []
    rfl rfl (by decide) (by decide) (by decide) trivial (by decide) (by decide)
    (by decide) (by decide) (by decide) (by decide)

/-- C3: in the CONTENT_BLANK lookahead, whatever the acceptability vector,
scan never matches when the blank run's first real content line is
unindented, no matter how many blank or comment-only lines were skipped
before it; and scan never matches when end of input is reached before any
content line. -/
theorem c3_lookahead_declines :
    (∀ (v : ValidSymbols) (b0 w : List Char) (ms : List (List Char × MidLine))
        (bfin : List Char) (c : Char) (rest : List Char),
      is_break b0 = true → w.all is_hspace = true →
      (b0 = ['\r'] → (w ++ (mid_render ms ++ (bfin ++ c :: rest))).head? ≠ some '\n') →
      chain_wf ms (bfin ++ c :: rest) → is_break bfin = true →
      is_hspace c = false → is_newline c = false →
      (c = '/' → rest.head? ≠ some '/') →
      (scan v (b0 ++ (w ++ (mid_render ms ++ (bfin ++ c :: rest))))).matched = false)
    ∧ (∀ (v : ValidSymbols) (b0 w : List Char) (ms : List (List Char × MidLine)),
      is_break b0 = true → w.all is_hspace = true →
      (b0 = ['\r'] → (w ++ mid_render ms).head? ≠ some '\n') →
      chain_wf ms [] →
      (scan v (b0 ++ (w ++ mid_render ms))).matched = false) := by
  constructor
  · intro v b0 w ms bfin c rest hb0 hw hcr0 hch hbf hc1 hc2 hsl
    have hafter : head_is_newline (bfin ++ c :: rest) = true ∨
        bfin ++ c :: rest = [] := Or.inl (head_is_newline_break bfin _ hbf)
    have hT := mid_render_head ms (bfin ++ c :: rest) hch hafter
    cases hes : v.error_sentinel with
    | true => rw [scan_err v _ hes]; rfl
    | false =>
      cases hig : (v.indent || v.content_blank) with
      | false =>
        simp only [Bool.or_eq_false_iff] at hig
        rw [scan_no_symbols v _ hig.1 hig.2]
        rfl
      | true =>
        rw [scan_eq_line_loop v _ hes hig (head_is_newline_break b0 _ hb0)]
        rw [sll_blank v b0 w _ hb0 hw hT hcr0]
        cases hcb : v.content_blank with
        | false => rw [scan_finish_no_cb v _ _ hcb]; rfl
        | true =>
          rw [scan_finish_blank v _ _ hcb]
          have hbl : blank_lookahead (mid_render ms ++ (bfin ++ c :: rest)) = false := by
            rw [bl_chain ms _ hafter hch]
            have h2 := bl_content_step bfin [] c rest hbf rfl hc1 hc2 hsl
            simp only [List.nil_append] at h2
            rw [h2]
            rfl
          rw [hbl]
          rfl
  · intro v b0 w ms hb0 hw hcr0 hch
    have hT0 := mid_render_head ms [] hch (Or.inr rfl)
    rw [List.append_nil] at hT0
    cases hes : v.error_sentinel with
    | true => rw [scan_err v _ hes]; rfl
    | false =>
      cases hig : (v.indent || v.content_blank) with
      | false =>
        simp only [Bool.or_eq_false_iff] at hig
        rw [scan_no_symbols v _ hig.1 hig.2]
        rfl
      | true =>
        rw [scan_eq_line_loop v _ hes hig (head_is_newline_break b0 _ hb0)]
        rw [sll_blank v b0 w _ hb0 hw hT0 hcr0]
        cases hcb : v.content_blank with
        | false => rw [scan_finish_no_cb v _ _ hcb]; rfl
        | true =>
          rw [scan_finish_blank v _ _ hcb]
          have hbl : blank_lookahead (mid_render ms) = false := by
            have h2 := bl_chain ms [] (Or.inr rfl) hch
            rw [List.append_nil] at h2
            rw [h2, bl_nil]
          rw [hbl]
          rfl

/-- C3 (witness): both parts applied concretely — an unindented content
line after a blank line (no match), and end of input after a blank line
(no match), both with INDENT and CONTENT_BLANK acceptable. -/
theorem c3_witness :
    (scan ⟨true, true, false⟩
        (['\n'] ++ ([] ++ (mid_render [] ++ (['\n'] ++ 'b' :: []))))).matched = false
    ∧ (scan ⟨true, true, false⟩ (['\n'] ++ ([' '] ++ mid_render []))).matched = false :=
  ⟨c3_lookahead_declines.1 ⟨true, true, false⟩ ['\n'] [] [] ['\n'] 'b' []
      (by decide) (by decide) (by decide) trivial (by decide) (by decide)
      (by decide) (by decide),
   c3_lookahead_declines.2 ⟨true, true, false⟩ ['\n'] [' '] []
      (by decide) (by decide) (by decide) trivial⟩

/-- A run of skippable lines each carrying its own line terminator AFTER
the line's characters: the region between the first blank line's terminator
and whatever follows the run. -/
def tr_render : List (MidLine × List Char) → List Char
  | [] => []
  | (L, b) :: ls => MidLine.render L ++ (b ++ tr_render ls)

/-- Well-formedness of a trailing-terminator run that is preceded by the
break bprev and followed by the suffix tail: every line is well formed,
every terminator is a line break, and a bare carriage return is never
directly followed by a line feed. -/
def tr_wf (tail : List Char) : List Char → List (MidLine × List Char) → Prop
  | bprev, [] => bprev = ['\r'] → tail.head? ≠ some '\n'
  | bprev, (L, b) :: ls =>
    MidLine.wf L = true ∧ is_break b = true
    ∧ (bprev = ['\r'] → (MidLine.render L ++ (b ++ (tr_render ls ++ tail))).head? ≠ some '\n')
    ∧ tr_wf tail b ls

/-- The comment-free skeleton of a run: two runs are related by inserting
or removing comment-only lines exactly when their skeletons are equal. -/
def drop_comments : List (MidLine × List Char) → List (MidLine × List Char)
  | [] => []
  | (MidLine.comment _ _, _) :: ls => drop_comments ls
  | (MidLine.blank ws, b) :: ls => (MidLine.blank ws, b) :: drop_comments ls

theorem head?_append_pair (w b : List Char) (hb : b ≠ []) (X : List Char) :
    (w ++ (b ++ X)).head? = (w ++ b).head? := by
  cases w with
  | nil =>
    simp only [List.nil_append]
    exact head?_append_left b X hb
  | cons c tl => simp

theorem is_break_ne_nil (b : List Char) (hb : is_break b = true) : b ≠ [] := by
  rcases is_break_cases b hb with h | h | h <;> subst h <;> simp

/-- The CONTENT_BLANK lookahead across any well-formed trailing-terminator
run of blank and comment-only lines reduces to the decision on the suffix
alone, independent of the run and of the break that precedes it. -/
theorem bl_tr_chain (tail : List Char) :
    ∀ (ls : List (MidLine × List Char)) (bw : List Char), is_break bw = true →
      tr_wf tail bw ls →
      blank_lookahead (bw ++ (tr_render ls ++ tail))
        = blank_lookahead (['\n'] ++ tail) := by
  intro ls
  induction ls with
  | nil =>
    intro bw hbw hwf
    simp only [tr_render, List.nil_append]
    rw [bl_unfold bw tail hbw hwf,
      bl_unfold ['\n'] tail (by decide) (fun h0 => absurd h0 (by decide))]
  | cons p ls ih =>
    intro bw hbw hwf
    obtain ⟨L, b⟩ := p
    obtain ⟨hLwf, hb, hcr, hwf2⟩ := hwf
    cases L with
    | blank ws =>
      simp only [tr_render, MidLine.render, List.append_assoc]
      rw [bl_blank_step bw ws (b ++ (tr_render ls ++ tail)) hbw
        (by simpa [MidLine.wf] using hLwf)
        (Or.inl (head_is_newline_break b _ hb))
        (by simpa [MidLine.render, List.append_assoc] using hcr)]
      exact ih b hb hwf2
    | comment ind cs =>
      have hLwf2 := hLwf
      simp only [MidLine.wf, Bool.and_eq_true] at hLwf2
      simp only [tr_render, MidLine.render, List.append_assoc, List.cons_append]
      rw [bl_comment_step bw ind cs (b ++ (tr_render ls ++ tail)) hbw hLwf2.1 hLwf2.2
        (Or.inl (head_is_newline_break b _ hb))]
      exact ih b hb hwf2

/-- C5: comment-only lines are transparent to the verdict.  For every
acceptability vector, take any input made of a line break, a blank line
with its terminator, then a well-formed run of blank and comment-only
lines (each with its own terminator, at any positions), then any suffix.
Whenever two such runs have the same comment-free skeleton — that is, one
is obtained from the other by inserting or removing any number of
comment-only lines anywhere between the blank run and what follows it —
scan's match/no-match verdict and its reported token kind are unchanged. -/
theorem c5_comment_transparent (v : ValidSymbols) (b0 w bw tail : List Char)
    (ls1 ls2 : List (MidLine × List Char))
    (hb0 : is_break b0 = true) (hw : w.all is_hspace = true)
    (hbw : is_break bw = true)
    (hcr0 : b0 = ['\r'] → (w ++ bw).head? ≠ some '\n')
    (h1 : tr_wf tail bw ls1) (h2 : tr_wf tail bw ls2)
    (hdrop : drop_comments ls1 = drop_comments ls2) :
    ((scan v (b0 ++ (w ++ (bw ++ (tr_render ls1 ++ tail))))).matched
       = (scan v (b0 ++ (w ++ (bw ++ (tr_render ls2 ++ tail))))).matched)
    ∧ ((scan v (b0 ++ (w ++ (bw ++ (tr_render ls1 ++ tail))))).result_symbol
       = (scan v (b0 ++ (w ++ (bw ++ (tr_render ls2 ++ tail))))).result_symbol) := by
  have hbne := is_break_ne_nil bw hbw
  have hcrL : b0 = ['\r'] →
      (w ++ (bw ++ (tr_render ls1 ++ tail))).head? ≠ some '\n' := by
    intro h0
    rw [head?_append_pair w bw hbne]
    exact hcr0 h0
  have hcrR : b0 = ['\r'] →
      (w ++ (bw ++ (tr_render ls2 ++ tail))).head? ≠ some '\n' := by
    intro h0
    rw [head?_append_pair w bw hbne]
    exact hcr0 h0
  cases hes : v.error_sentinel with
  | true =>
    rw [scan_err v _ hes, scan_err v _ hes]
    exact ⟨rfl, rfl⟩
  | false =>
    cases hig : (v.indent || v.content_blank) with
    | false =>
      simp only [Bool.or_eq_false_iff] at hig
      rw [scan_no_symbols v _ hig.1 hig.2, scan_no_symbols v _ hig.1 hig.2]
      exact ⟨rfl, rfl⟩
    | true =>
      rw [scan_eq_line_loop v _ hes hig (head_is_newline_break b0 _ hb0)]
      rw [scan_eq_line_loop v _ hes hig (head_is_newline_break b0 _ hb0)]
      rw [sll_blank v b0 w _ hb0 hw (Or.inl (head_is_newline_break bw _ hbw)) hcrL]
      rw [sll_blank v b0 w _ hb0 hw (Or.inl (head_is_newline_break bw _ hbw)) hcrR]
      cases hcb : v.content_blank with
      | false =>
        rw [scan_finish_no_cb v _ _ hcb, scan_finish_no_cb v _ _ hcb]
        exact ⟨rfl, rfl⟩
      | true =>
        rw [scan_finish_blank v _ _ hcb, scan_finish_blank v _ _ hcb]
        rw [bl_tr_chain tail ls1 bw hbw h1, bl_tr_chain tail ls2 bw hbw h2]
        cases hbl : blank_lookahead (['\n'] ++ tail) with
        | true => exact ⟨rfl, rfl⟩
        | false => exact ⟨rfl, rfl⟩

/-- C5 (witness): the theorem applied to the concrete pair of inputs
newline, blank line, newline, the comment line slash-slash-c terminated by
carriage-return line-feed, then the content line two spaces then b —
against the same input with the comment line removed; the inserted comment
line's terminator differs from the file's line feeds, and both scans agree
on verdict and kind. -/
theorem c5_witness :
    ((scan ⟨true, true, false⟩
        (['\n'] ++ ([] ++ (['\n'] ++ (tr_render [(MidLine.comment [] ['c'], ['\r', '\n'])]
          ++ [' ', ' ', 'b']))))).matched
      = (scan ⟨true, true, false⟩
          (['\n'] ++ ([] ++ (['\n'] ++ (tr_render [] ++ [' ', ' ', 'b']))))).matched)
    ∧ ((scan ⟨true, true, false⟩
        (['\n'] ++ ([] ++ (['\n'] ++ (tr_render [(MidLine.comment [] ['c'], ['\r', '\n'])]
          ++ [' ', ' ', 'b']))))).result_symbol
      = (scan ⟨true, true, false⟩
          (['\n'] ++ ([] ++ (['\n'] ++ (tr_render [] ++ [' ', ' ', 'b']))))).result_symbol) :=
  c5_comment_transparent ⟨true, true, false⟩ ['\n'] [] ['\n'] [' ', ' ', 'b']
    [(MidLine.comment [] ['c'], ['\r', '\n'])] []
    (by decide) (by decide) (by decide) (by decide)
    ⟨by decide, by decide, by decide, fun h0 => absurd h0 (by decide)⟩
    (fun h0 => absurd h0 (by decide)) rfl

theorem scan_finish_cases (v : ValidSymbols) (s : List Char) (at_eol vi : Bool) :
    scan_finish v s at_eol vi = no_match
    ∨ scan_finish v s at_eol vi = ⟨false, none, some s⟩
    ∨ scan_finish v s at_eol vi = ⟨true, some TokenType.INDENT, some s⟩
    ∨ scan_finish v s at_eol vi = ⟨true, some TokenType.CONTENT_BLANK, some s⟩ := by
  rw [scan_finish]
  split
  · right
    right
    left
    rfl
  · split
    · split
      · right
        right
        right
        rfl
      · right
        left
        rfl
    · left
      rfl

theorem sll_cases (v : ValidSymbols) (n : Nat) : ∀ (s : List Char), s.length < n →
    scan_line_loop v s = no_match
    ∨ (∃ m, scan_line_loop v s = ⟨false, none, some m⟩)
    ∨ (∃ m, scan_line_loop v s = ⟨true, some TokenType.INDENT, some m⟩)
    ∨ (∃ m, scan_line_loop v s = ⟨true, some TokenType.CONTENT_BLANK, some m⟩) := by
  induction n with
  | zero =>
    intro s hs
    omega
  | succ n ih =>
    intro s hs
    rw [scan_line_loop]
    split
    · rename_i h
      split
      · split
        · have hd := sll_dec s h.2
          exact ih _ (by omega)
        · left
          rfl
      · rcases scan_finish_cases v
            (consume_indentation (consume_newline s)).rest.tail
            (head_is_newline (consume_indentation (consume_newline s)).rest
              || (consume_indentation (consume_newline s)).rest.isEmpty)
            (has_valid_indent (consume_indentation (consume_newline s)).indent
              (consume_indentation (consume_newline s)).has_tab)
          with h0 | h0 | h0 | h0
        · left
          exact h0
        · right
          left
          exact ⟨_, h0⟩
        · right
          right
          left
          exact ⟨_, h0⟩
        · right
          right
          right
          exact ⟨_, h0⟩
    · rcases scan_finish_cases v (consume_indentation (consume_newline s)).rest
          (head_is_newline (consume_indentation (consume_newline s)).rest
            || (consume_indentation (consume_newline s)).rest.isEmpty)
          (has_valid_indent (consume_indentation (consume_newline s)).indent
            (consume_indentation (consume_newline s)).has_tab)
        with h0 | h0 | h0 | h0
      · left
        exact h0
      · right
        left
        exact ⟨_, h0⟩
      · right
        right
        left
        exact ⟨_, h0⟩
      · right
        right
        right
        exact ⟨_, h0⟩

theorem scan_cases (v : ValidSymbols) (s : List Char) :
    scan v s = no_match
    ∨ (∃ m, scan v s = ⟨false, none, some m⟩)
    ∨ (∃ m, scan v s = ⟨true, some TokenType.INDENT, some m⟩)
    ∨ (∃ m, scan v s = ⟨true, some TokenType.CONTENT_BLANK, some m⟩) := by
  rw [scan]
  split
  · left
    rfl
  · split
    · rw [scan_newline]
      split
      · exact sll_cases v (s.length + 1) s (by omega)
      · left
        rfl
    · left
      rfl

/-- C8: for every input and acceptability vector, if scan returns a match
then the reported token kind is exactly INDENT or CONTENT_BLANK, never the
error sentinel, and the boundary was set through the mark operation (the
marked end is present). -/
theorem c8_match_shape (v : ValidSymbols) (s : List Char)
    (h : (scan v s).matched = true) :
    ((scan v s).result_symbol = some TokenType.INDENT
      ∨ (scan v s).result_symbol = some TokenType.CONTENT_BLANK)
    ∧ (scan v s).result_symbol ≠ some TokenType.ERROR_SENTINEL
    ∧ (scan v s).marked_end ≠ none := by
  rcases scan_cases v s with h0 | ⟨m, h0⟩ | ⟨m, h0⟩ | ⟨m, h0⟩
  · rw [h0] at h
    simp [no_match] at h
  · rw [h0] at h
    simp at h
  · rw [h0]
    exact ⟨Or.inl rfl, by simp, by simp⟩
  · rw [h0]
    exact ⟨Or.inr rfl, by simp, by simp⟩

/-- C8 (witness): the theorem applied at the concrete input newline, space,
a — which matches INDENT — using the INDENT evaluation to discharge the
match hypothesis. -/
theorem c8_witness :
    ((scan ⟨true, false, false⟩ (['\n'] ++ ([' '] ++ 'a' :: []))).result_symbol
        = some TokenType.INDENT
      ∨ (scan ⟨true, false, false⟩ (['\n'] ++ ([' '] ++ 'a' :: []))).result_symbol
        = some TokenType.CONTENT_BLANK)
    ∧ (scan ⟨true, false, false⟩ (['\n'] ++ ([' '] ++ 'a' :: []))).result_symbol
        ≠ some TokenType.ERROR_SENTINEL
    ∧ (scan ⟨true, false, false⟩ (['\n'] ++ ([' '] ++ 'a' :: []))).marked_end ≠ none :=
  c8_match_shape ⟨true, false, false⟩ (['\n'] ++ ([' '] ++ 'a' :: []))
    (by rw [scan_indent_content ⟨true, false, false⟩ ['\n'] [' '] 'a' []
      (by decide) (by decide) (by decide) (by decide) (by decide) (by decide) rfl rfl])

/-- A run of comment-only lines in the outer loop, each line rendered as
indentation, two slashes, comment text, then its own terminator, ending at
the given suffix. -/
def comment_chain (tail : List Char) : List (List Char × List Char × List Char) → List Char
  | [] => tail
  | (ind, cs, b) :: cl => ind ++ ('/' :: '/' :: (cs ++ (b ++ comment_chain tail cl)))

/-- Well-formedness of an outer comment run: horizontal-whitespace
indentation, break-free comment text, and a line break terminator for every
line. -/
def comment_chain_wf : List (List Char × List Char × List Char) → Bool
  | [] => true
  | (ind, cs, b) :: cl =>
    ind.all is_hspace
      && (cs.all (fun c => !is_newline c) && (is_break b && comment_chain_wf cl))

theorem sll_chain_indent (v : ValidSymbols) (ind : List Char) (c : Char)
    (rest : List Char) (hind : ind.all is_hspace = true) (hne : ind ≠ [])
    (hc1 : is_hspace c = false) (hc2 : is_newline c = false) (hc3 : c ≠ '/')
    (hvi : v.indent = true) :
    ∀ (cl : List (List Char × List Char × List Char)) (b : List Char),
      is_break b = true → comment_chain_wf cl = true →
      scan_line_loop v (b ++ comment_chain (ind ++ c :: rest) cl)
        = ⟨true, some TokenType.INDENT, some (c :: rest)⟩ := by
  intro cl
  induction cl with
  | nil =>
    intro b hb _
    exact sll_indent v b ind c rest hb hind hne hc1 hc2 hc3 hvi
  | cons p cl ih =>
    intro b hb hwf
    obtain ⟨ind1, cs1, b1⟩ := p
    simp only [comment_chain_wf, Bool.and_eq_true] at hwf
    simp only [comment_chain]
    rw [sll_comment_skip v b ind1 cs1 _ hb hwf.1 hwf.2.1
      (head_is_newline_break b1 _ hwf.2.2.1)]
    exact ih b1 hwf.2.2.1 hwf.2.2.2

theorem sll_chain_indent_slash (v : ValidSymbols) (ind rest : List Char)
    (hind : ind.all is_hspace = true) (hne : ind ≠ [])
    (hsl : rest.head? ≠ some '/') (hvi : v.indent = true) :
    ∀ (cl : List (List Char × List Char × List Char)) (b : List Char),
      is_break b = true → comment_chain_wf cl = true →
      scan_line_loop v (b ++ comment_chain (ind ++ '/' :: rest) cl)
        = ⟨true, some TokenType.INDENT, some rest⟩ := by
  intro cl
  induction cl with
  | nil =>
    intro b hb _
    exact sll_indent_slash v b ind rest hb hind hne hsl hvi
  | cons p cl ih =>
    intro b hb hwf
    obtain ⟨ind1, cs1, b1⟩ := p
    simp only [comment_chain_wf, Bool.and_eq_true] at hwf
    simp only [comment_chain]
    rw [sll_comment_skip v b ind1 cs1 _ hb hwf.1 hwf.2.1
      (head_is_newline_break b1 _ hwf.2.2.1)]
    exact ih b1 hwf.2.2.1 hwf.2.2.2

/-- C10 (counterexample): with one comment line between the initial break
and a final content line whose content starts with a lone slash, INDENT is
matched but the committed boundary is the suffix x — one character past the
final line's indentation — not the suffix slash-x directly after the
indentation, so the boundary placement claimed by C10 fails here. -/
theorem c10_counterexample :
    scan ⟨true, false, false⟩
        (['\n'] ++ comment_chain ([' '] ++ '/' :: ['x']) [([], ['c'], ['\n'])])
      = ⟨true, some TokenType.INDENT, some ['x']⟩
    ∧ (['x'] : List Char) ≠ ['/', 'x'] := by
  constructor
  · rw [scan_eq_line_loop ⟨true, false, false⟩ _ rfl (by decide) (by decide)]
    exact sll_chain_indent_slash ⟨true, false, false⟩ [' '] ['x'] (by decide)
      (by decide) (by decide) rfl [([], ['c'], ['\n'])] ['\n'] (by decide) (by decide)
  · decide

/-- C10 (amended): when scan matches INDENT after skipping one or more
comment-only lines and the final content line's first character is not a
slash, the committed boundary sits after the final line's indentation, so
the emitted token's extent contains the initial line break, every skipped
comment line with its terminator, and the final line's indentation. -/
theorem c10_indent_extent (v : ValidSymbols) (b0 : List Char)
    (cl : List (List Char × List Char × List Char)) (ind : List Char) (c : Char)
    (rest : List Char) (hvi : v.indent = true) (hes : v.error_sentinel = false)
    (hb0 : is_break b0 = true) (hcl : comment_chain_wf cl = true) (hclne : cl ≠ [])
    (hind : ind.all is_hspace = true) (hne : ind ≠ [])
    (hc1 : is_hspace c = false) (hc2 : is_newline c = false) (hc3 : c ≠ '/') :
    scan v (b0 ++ comment_chain (ind ++ c :: rest) cl)
      = ⟨true, some TokenType.INDENT, some (c :: rest)⟩ := by
  rw [scan_eq_line_loop v _ hes (by simp [hvi]) (head_is_newline_break b0 _ hb0)]
  exact sll_chain_indent v ind c rest hind hne hc1 hc2 hc3 hvi cl b0 hb0 hcl

/-- C10 (witness): the amended theorem applied at the concrete input of a
line feed, the comment line slash-slash-c with its line feed, then the
content line one space then y. -/
theorem c10_witness :
    scan ⟨true, false, false⟩
        (['\n'] ++ comment_chain ([' '] ++ 'y' :: []) [([], ['c'], ['\n'])])
      = ⟨true, some TokenType.INDENT, some ['y']⟩ :=
  c10_indent_extent ⟨true, false, false⟩ ['\n'] [([], ['c'], ['\n'])] [' '] 'y' []
    rfl rfl (by decide) (by decide) (by decide) (by decide) (by decide)
    (by decide) (by decide) (by decide)

/-- Two inputs related by replacing line terminators: equal away from
terminators, and at each terminator one of the three breaks stands on each
side, a bare carriage return never directly followed by a line feed. -/
inductive BreakRel : List Char → List Char → Prop where
  | nil : BreakRel [] []
  | cons (c : Char) {s t : List Char} :
      is_newline c = false → BreakRel s t → BreakRel (c :: s) (c :: t)
  | brk {b1 b2 s t : List Char} :
      is_break b1 = true → is_break b2 = true →
      (b1 = ['\r'] → s.head? ≠ some '\n') → (b2 = ['\r'] → t.head? ≠ some '\n') →
      BreakRel s t → BreakRel (b1 ++ s) (b2 ++ t)

theorem br_head_newline {s t : List Char} (h : BreakRel s t) :
    head_is_newline s = head_is_newline t := by
  cases h with
  | nil => rfl
  | cons c hc _ => rfl
  | brk h1 h2 _ _ _ =>
    rw [head_is_newline_break _ _ h1, head_is_newline_break _ _ h2]

theorem isEmpty_append_break (b u : List Char) (hb : is_break b = true) :
    (b ++ u).isEmpty = false := by
  rcases is_break_cases b hb with h | h | h <;> subst h <;> rfl

theorem br_isEmpty {s t : List Char} (h : BreakRel s t) : s.isEmpty = t.isEmpty := by
  cases h with
  | nil => rfl
  | cons c hc _ => rfl
  | brk h1 h2 _ _ _ =>
    rw [isEmpty_append_break _ _ h1, isEmpty_append_break _ _ h2]

theorem head_slash_of_break (b u : List Char) (hb : is_break b = true) :
    (b ++ u).head? ≠ some '/' := by
  rcases is_break_cases b hb with h | h | h <;> subst h <;> intro h0 <;>
    simp only [List.cons_append, List.head?_cons, Option.some.injEq] at h0 <;>
    exact absurd h0 (by decide)

theorem br_head_slash {s t : List Char} (h : BreakRel s t) :
    (s.head? = some '/') ↔ (t.head? = some '/') := by
  cases h with
  | nil => simp
  | cons c hc _ => simp
  | brk h1 h2 _ _ _ =>
    constructor
    · intro h0
      exact absurd h0 (head_slash_of_break _ _ h1)
    · intro h0
      exact absurd h0 (head_slash_of_break _ _ h2)

theorem br_consume_newline {s t : List Char} (h : BreakRel s t) :
    BreakRel (consume_newline s) (consume_newline t) := by
  cases h with
  | nil => exact BreakRel.nil
  | cons c hc hrel =>
    have hc2 : ¬c = '\r' := by
      simp only [is_newline, Bool.or_eq_false_iff, decide_eq_false_iff_not] at hc
      exact hc.2
    simp only [consume_newline]
    rw [if_neg hc2, if_neg hc2]
    exact hrel
  | brk h1 h2 hcr1 hcr2 hrel =>
    rw [consume_newline_break _ _ h1 hcr1, consume_newline_break _ _ h2 hcr2]
    exact hrel

theorem consume_indentation_not_hspace (u : List Char) (h : head_is_hspace u = false) :
    consume_indentation u = ⟨0, false, u⟩ := by
  match u with
  | [] => rfl
  | c :: tl =>
    have hc : is_hspace c = false := by simpa [head_is_hspace] using h
    simp only [consume_indentation]
    rw [if_neg (by simp [hc])]

theorem head_is_hspace_break (b u : List Char) (hb : is_break b = true) :
    head_is_hspace (b ++ u) = false := by
  rcases is_break_cases b hb with h | h | h <;> subst h <;> rfl

theorem br_consume_indentation {s t : List Char} (h : BreakRel s t) :
    (consume_indentation s).indent = (consume_indentation t).indent
    ∧ (consume_indentation s).has_tab = (consume_indentation t).has_tab
    ∧ BreakRel (consume_indentation s).rest (consume_indentation t).rest := by
  induction h with
  | nil => exact ⟨rfl, rfl, BreakRel.nil⟩
  | cons c hc hrel ih =>
    cases hsp : is_hspace c with
    | true =>
      simp only [consume_indentation]
      rw [if_pos hsp, if_pos hsp]
      dsimp only
      exact ⟨by rw [ih.1], by rw [ih.2.1], ih.2.2⟩
    | false =>
      simp only [consume_indentation]
      rw [if_neg (by simp [hsp]), if_neg (by simp [hsp])]
      exact ⟨rfl, rfl, BreakRel.cons c hc hrel⟩
  | brk h1 h2 hcr1 hcr2 hrel =>
    rw [consume_indentation_not_hspace _ (head_is_hspace_break _ _ h1)]
    rw [consume_indentation_not_hspace _ (head_is_hspace_break _ _ h2)]
    exact ⟨rfl, rfl, BreakRel.brk h1 h2 hcr1 hcr2 hrel⟩

theorem skip_to_eol_of_newline_head (u : List Char) (h : head_is_newline u = true) :
    skip_to_eol u = u := by
  match u, h with
  | c :: tl, h =>
    simp only [skip_to_eol]
    rw [if_pos (by simpa [head_is_newline] using h)]

theorem br_skip_to_eol {s t : List Char} (h : BreakRel s t) :
    BreakRel (skip_to_eol s) (skip_to_eol t) := by
  induction h with
  | nil => exact BreakRel.nil
  | cons c hc hrel ih =>
    simp only [skip_to_eol]
    rw [if_neg (by simp [hc]), if_neg (by simp [hc])]
    exact ih
  | brk h1 h2 hcr1 hcr2 hrel =>
    rw [skip_to_eol_of_newline_head _ (head_is_newline_break _ _ h1)]
    rw [skip_to_eol_of_newline_head _ (head_is_newline_break _ _ h2)]
    exact BreakRel.brk h1 h2 hcr1 hcr2 hrel

theorem blank_lookahead_not_newline (u : List Char) (h : head_is_newline u = false) :
    blank_lookahead u = false := by
  rw [blank_lookahead]
  rw [dif_neg (by simp [h])]

theorem br_tail_of_head_slash {s t : List Char} (h : BreakRel s t)
    (hs : s.head? = some '/') :
    t.head? = some '/' ∧ BreakRel s.tail t.tail := by
  cases h with
  | nil => simp at hs
  | cons c hc hrel =>
    simp only [List.head?_cons, Option.some.injEq] at hs
    subst hs
    exact ⟨rfl, by simpa using hrel⟩
  | brk h1 h2 _ _ _ => exact absurd hs (head_slash_of_break _ _ h1)

/-- Related inputs give the CONTENT_BLANK lookahead the same verdict. -/
theorem br_blank_lookahead (n : Nat) : ∀ (s t : List Char), s.length < n →
    BreakRel s t → blank_lookahead s = blank_lookahead t := by
  induction n with
  | zero =>
    intro s t hs
    omega
  | succ n ih =>
    intro s t hs hrel
    cases hhn : head_is_newline s with
    | false =>
      rw [blank_lookahead_not_newline s hhn,
        blank_lookahead_not_newline t (by rw [← br_head_newline hrel]; exact hhn)]
    | true =>
      have hhnt : head_is_newline t = true := by
        rw [← br_head_newline hrel]
        exact hhn
      have R := br_consume_indentation (br_consume_newline hrel)
      conv_lhs => rw [blank_lookahead]
      conv_rhs => rw [blank_lookahead]
      rw [dif_pos hhn, dif_pos hhnt]
      have hcond1 : (head_is_newline (consume_indentation (consume_newline s)).rest
            || (consume_indentation (consume_newline s)).rest.isEmpty)
          = (head_is_newline (consume_indentation (consume_newline t)).rest
            || (consume_indentation (consume_newline t)).rest.isEmpty) := by
        rw [br_head_newline R.2.2, br_isEmpty R.2.2]
      cases hc1 : (head_is_newline (consume_indentation (consume_newline s)).rest
          || (consume_indentation (consume_newline s)).rest.isEmpty) with
      | true =>
        have hc1t : (head_is_newline (consume_indentation (consume_newline t)).rest
            || (consume_indentation (consume_newline t)).rest.isEmpty) = true := by
          rw [← hcond1]
          exact hc1
        rw [if_pos rfl, if_pos hc1t]
        have hlen : (consume_indentation (consume_newline s)).rest.length < n := by
          have := bl_dec_blank s hhn
          omega
        exact ih _ _ hlen R.2.2
      | false =>
        have hc1t : (head_is_newline (consume_indentation (consume_newline t)).rest
            || (consume_indentation (consume_newline t)).rest.isEmpty) = false := by
          rw [← hcond1]
          exact hc1
        have hn1t : ¬((head_is_newline (consume_indentation (consume_newline t)).rest
            || (consume_indentation (consume_newline t)).rest.isEmpty) = true) := by
          simp [hc1t]
        rw [if_neg (show ¬(false = true) by decide), if_neg hn1t]
        by_cases hsl : (consume_indentation (consume_newline s)).rest.head? = some '/'
        · have ht := br_tail_of_head_slash R.2.2 hsl
          by_cases hsl2 :
              (consume_indentation (consume_newline s)).rest.tail.head? = some '/'
          · have hps : (consume_indentation (consume_newline s)).rest.head? = some '/'
                ∧ (consume_indentation (consume_newline s)).rest.tail.head? = some '/' :=
              ⟨hsl, hsl2⟩
            have hpt : (consume_indentation (consume_newline t)).rest.head? = some '/'
                ∧ (consume_indentation (consume_newline t)).rest.tail.head? = some '/' :=
              ⟨ht.1, (br_head_slash ht.2).mp hsl2⟩
            rw [if_pos hps, if_pos hpt]
            have hlen : (skip_to_eol
                (consume_indentation (consume_newline s)).rest.tail).length < n := by
              have := bl_dec_comment s hhn
              omega
            exact ih _ _ hlen (br_skip_to_eol ht.2)
          · have hns : ¬((consume_indentation (consume_newline s)).rest.head? = some '/'
                ∧ (consume_indentation (consume_newline s)).rest.tail.head? = some '/') :=
              fun hand => hsl2 hand.2
            have hnt : ¬((consume_indentation (consume_newline t)).rest.head? = some '/'
                ∧ (consume_indentation (consume_newline t)).rest.tail.head? = some '/') :=
              fun hand => hsl2 ((br_head_slash ht.2).mpr hand.2)
            rw [if_neg hns, if_neg hnt]
            rw [R.1, R.2.1]
        · have hns : ¬((consume_indentation (consume_newline s)).rest.head? = some '/'
              ∧ (consume_indentation (consume_newline s)).rest.tail.head? = some '/') :=
            fun hand => hsl hand.1
          have hnt : ¬((consume_indentation (consume_newline t)).rest.head? = some '/'
              ∧ (consume_indentation (consume_newline t)).rest.tail.head? = some '/') :=
            fun hand => hsl ((br_head_slash R.2.2).mpr hand.1)
          rw [if_neg hns, if_neg hnt]
          rw [R.1, R.2.1]

/-- Related cursor suffixes give the Case 1 / Case 2 decision the same
verdict and token kind (the marks differ, the verdict does not). -/
theorem br_scan_finish (v : ValidSymbols) (a vi : Bool) {s t : List Char}
    (h : BreakRel s t) :
    (scan_finish v s a vi).matched = (scan_finish v t a vi).matched
    ∧ (scan_finish v s a vi).result_symbol = (scan_finish v t a vi).result_symbol := by
  rw [scan_finish, scan_finish]
  by_cases h1 : (a = false ∧ vi = true ∧ v.indent = true)
  · rw [if_pos h1, if_pos h1]
    exact ⟨rfl, rfl⟩
  · rw [if_neg h1, if_neg h1]
    by_cases h2 : (a = true ∧ v.content_blank = true)
    · rw [if_pos h2, if_pos h2]
      rw [br_blank_lookahead (s.length + 1) s t (by omega) h]
      cases hblv : blank_lookahead t with
      | true => exact ⟨rfl, rfl⟩
      | false => exact ⟨rfl, rfl⟩
    · rw [if_neg h2, if_neg h2]
      exact ⟨rfl, rfl⟩

/-- Related inputs give the outer loop the same verdict and token kind. -/
theorem br_sll (v : ValidSymbols) (n : Nat) : ∀ (s t : List Char), s.length < n →
    BreakRel s t →
    (scan_line_loop v s).matched = (scan_line_loop v t).matched
    ∧ (scan_line_loop v s).result_symbol = (scan_line_loop v t).result_symbol := by
  induction n with
  | zero =>
    intro s t hs
    omega
  | succ n ih =>
    intro s t hs hrel
    have R := br_consume_indentation (br_consume_newline hrel)
    have hcond1 : (head_is_newline (consume_indentation (consume_newline s)).rest
          || (consume_indentation (consume_newline s)).rest.isEmpty)
        = (head_is_newline (consume_indentation (consume_newline t)).rest
          || (consume_indentation (consume_newline t)).rest.isEmpty) := by
      rw [br_head_newline R.2.2, br_isEmpty R.2.2]
    rw [scan_line_loop.eq_def v s, scan_line_loop.eq_def v t]
    by_cases hg : ((head_is_newline (consume_indentation (consume_newline s)).rest
          || (consume_indentation (consume_newline s)).rest.isEmpty) = false)
        ∧ (consume_indentation (consume_newline s)).rest.head? = some '/'
    · have ht := br_tail_of_head_slash R.2.2 hg.2
      have hgt : ((head_is_newline (consume_indentation (consume_newline t)).rest
            || (consume_indentation (consume_newline t)).rest.isEmpty) = false)
          ∧ (consume_indentation (consume_newline t)).rest.head? = some '/' :=
        ⟨by rw [← hcond1]; exact hg.1, ht.1⟩
      rw [dif_pos hg, dif_pos hgt]
      by_cases hsl2 : (consume_indentation (consume_newline s)).rest.tail.head? = some '/'
      · rw [if_pos hsl2, if_pos ((br_head_slash ht.2).mp hsl2)]
        have hsk := br_skip_to_eol ht.2
        have hnl := br_head_newline hsk
        cases hnlv : head_is_newline
            (skip_to_eol (consume_indentation (consume_newline s)).rest.tail) with
        | true =>
          rw [if_pos rfl, if_pos (by rw [← hnl]; exact hnlv)]
          exact ih _ _ (by have := sll_dec s hg.2; omega) hsk
        | false =>
          have hnlt : ¬(head_is_newline
              (skip_to_eol (consume_indentation (consume_newline t)).rest.tail)
              = true) := by
            rw [← hnl]
            simp [hnlv]
          rw [if_neg (show ¬(false = true) by decide), if_neg hnlt]
          exact ⟨rfl, rfl⟩
      · rw [if_neg hsl2, if_neg (fun h0 => hsl2 ((br_head_slash ht.2).mpr h0))]
        rw [hcond1, R.1, R.2.1]
        exact br_scan_finish v _ _ ht.2
    · have hgt : ¬(((head_is_newline (consume_indentation (consume_newline t)).rest
            || (consume_indentation (consume_newline t)).rest.isEmpty) = false)
          ∧ (consume_indentation (consume_newline t)).rest.head? = some '/') :=
        fun h0 => hg ⟨by rw [hcond1]; exact h0.1, (br_head_slash R.2.2).mpr h0.2⟩
      rw [dif_neg hg, dif_neg hgt]
      rw [hcond1, R.1, R.2.1]
      exact br_scan_finish v _ _ R.2.2

/-- Related inputs give the whole scan the same verdict and token kind. -/
theorem br_scan (v : ValidSymbols) {s t : List Char} (hrel : BreakRel s t) :
    (scan v s).matched = (scan v t).matched
    ∧ (scan v s).result_symbol = (scan v t).result_symbol := by
  rw [scan, scan]
  by_cases h1 : in_error_recovery v = true
  · rw [if_pos h1, if_pos h1]
    exact ⟨rfl, rfl⟩
  · rw [if_neg h1, if_neg h1]
    by_cases h2 : (v.indent || v.content_blank) = true
    · rw [if_pos h2, if_pos h2]
      rw [scan_newline, scan_newline]
      cases hn : head_is_newline s with
      | true =>
        rw [if_pos (show (true : Bool) = true from rfl),
          if_pos (show head_is_newline t = true by rw [← br_head_newline hrel]; exact hn)]
        exact br_sll v (s.length + 1) s t (by omega) hrel
      | false =>
        have hnt : ¬(head_is_newline t = true) := by
          rw [← br_head_newline hrel]
          simp [hn]
        rw [if_neg (show ¬(false = true) by decide), if_neg hnt]
        exact ⟨rfl, rfl⟩
    · rw [if_neg h2, if_neg h2]
      exact ⟨rfl, rfl⟩

/-- C9: the three line terminators are interchangeable.  Each of line feed,
bare carriage return (not followed by a line feed) and carriage-return
line-feed is consumed as a single logical break; and for inputs related by
replacing any line terminators by any others of the three, scan's
match/no-match verdict and its reported token kind are unchanged, for every
acceptability vector. -/
theorem c9_break_interchange :
    (∀ (b s : List Char), is_break b = true → (b = ['\r'] → s.head? ≠ some '\n') →
      consume_newline (b ++ s) = s)
    ∧ (∀ (v : ValidSymbols) (s t : List Char), BreakRel s t →
      (scan v s).matched = (scan v t).matched
      ∧ (scan v s).result_symbol = (scan v t).result_symbol) :=
  ⟨consume_newline_break, fun v _ _ hrel => br_scan v hrel⟩

/-- C9 (witness): the consumption part applied to a carriage-return
line-feed pair, and the invariance part applied to the concrete inputs
newline space b against carriage-return space b. -/
theorem c9_witness :
    consume_newline (['\r', '\n'] ++ [' ']) = [' ']
    ∧ (scan ⟨true, false, false⟩ (['\n'] ++ [' ', 'b'])).matched
        = (scan ⟨true, false, false⟩ (['\r'] ++ [' ', 'b'])).matched :=
  ⟨c9_break_interchange.1 ['\r', '\n'] [' '] (by decide) (by decide),
   (c9_break_interchange.2 ⟨true, false, false⟩ (['\n'] ++ [' ', 'b'])
      (['\r'] ++ [' ', 'b'])
      (BreakRel.brk (by decide) (by decide) (by decide) (by decide)
        (BreakRel.cons ' ' (by decide)
          (BreakRel.cons 'b' (by decide) BreakRel.nil)))).1⟩

end ThaloScanner
